import Mathlib

/-!
Verification of the kmeRS parallel k-mer counting engine (src/main.rs).

Modelling choices (shallow embedding):
* A Rust `String` (a sequence, a k-mer, a file path, a line of a file) is a
  `List Char`.
* A `HashMap<String, u32>` is a total function `List Char → Nat` sending a key
  absent from the map to 0; `entry(key).or_insert(0) += v` is pointwise update.
* A Rust panic (usize underflow, slice out of bounds, `% 0`, explicit
  `panic!`) is `Option.none`; file I/O is abstracted away by passing the
  opened file's lines as a `List (List Char)`.
* `rayon`'s parallel iteration merges each work unit's local map into the
  mutex-protected global map in a nondeterministic completion order; the
  embedding fixes the list order in `count_kmers` and proves the result
  invariant under permutation of that order, which is how scheduling
  nondeterminism is settled here.
-/

namespace KmeRS

/-- A sequence of characters: the model of a Rust `String`. -/
abbrev Sequence := List Char

/-- Model of `HashMap<String, u32>`: keys not in the map are sent to 0. -/
abbrev FreqMap := Sequence → Nat

/-- The freshly created empty map, `HashMap::new()`. -/
def emptyMap : FreqMap := fun _ => 0

/-- `*map.entry(w).or_insert(0) += 1` (main.rs:104), with the count as an
unbounded natural. The source's `u32` wrap-around (and the key/value pairs a
`HashMap` holds explicitly) is modelled separately by `entryAdd` and the
`count_kmers_u32` pipeline below. -/
def bump (m : FreqMap) (w : Sequence) : FreqMap :=
  fun x => if x = w then m x + 1 else m x

/-- The substring `sequence[j..j+k]` (main.rs:104) as character drop/take.
The char-boundary check of Rust `String` byte-range indexing is modelled
separately by `byteSlice` and `local_map_utf8` below; on single-byte
(ASCII) content the two coincide (`local_map_utf8_ascii`). -/
def slice (s : Sequence) (j k : Nat) : Sequence :=
  (s.drop j).take k

/-- The k-mers enumerated by `for j in 0..(sequence.len() - k)` (main.rs:103):
note the exclusive upper bound `sequence.len() - k` taken from the source. -/
def windowList (s : Sequence) (k : Nat) : List Sequence :=
  (List.range (s.length - k)).map (fun j => slice s j k)

/-- The per-unit `local_map` built by the loop at main.rs:103-105. `none`
models the panic of `sequence.len() - k` (usize underflow, and the slice
`sequence[j..j+k]` out of bounds) when `k` exceeds the sequence length. -/
def local_map (s : Sequence) (k : Nat) : Option FreqMap :=
  if s.length < k then none
  else some ((windowList s k).foldl bump emptyMap)

/-- Merging a local map into the global map (main.rs:108-111): for each
`(key, value)` of the local map, add `value` to the global entry. -/
def mergeInto (g l : FreqMap) : FreqMap :=
  fun x => g x + l x

/-- The fold of every work unit's local map into the global map
(main.rs:91-112, progress reporting aside): a faulting unit faults the run. -/
def merged_counts (seqs : List Sequence) (k : Nat) : Option FreqMap :=
  seqs.foldlM (fun g s => (local_map s k).map (mergeInto g)) emptyMap

/-- Whether `total_progress % (sequences.len()/10)` (main.rs:99) faults: the
closure runs for at least one sequence and the divisor `len/10` is zero. -/
def progress_faults (seqs : List Sequence) : Bool :=
  seqs.length != 0 && seqs.length / 10 == 0

/-- `count_kmers` (main.rs:75-116) on an already-ingested sequence list:
the global map after all units are processed, `none` when some unit panics
(progress division by zero, or `k` exceeding a sequence's length). -/
def count_kmers (seqs : List Sequence) (k : Nat) : Option FreqMap :=
  if progress_faults seqs then none else merged_counts seqs k

/-- `line.starts_with(c)` for a one-character pattern. -/
def startsWith (line : Sequence) (c : Char) : Bool :=
  line.head? == some c

/-- One step of the FASTA reading loop (main.rs:18-28), state =
(sequences, current_sequence). -/
def fasta_step (st : List Sequence × Sequence) (line : Sequence) :
    List Sequence × Sequence :=
  if startsWith line '>' then
    (if st.2.isEmpty then st.1 else st.1 ++ [st.2], [])
  else
    (st.1, st.2 ++ line)

/-- `get_sequences_from_fasta` (main.rs:10-33) on the file's lines. -/
def get_sequences_from_fasta (lines : List Sequence) : List Sequence :=
  let st := lines.foldl fasta_step ([], [])
  if st.2.isEmpty then st.1 else st.1 ++ [st.2]

/-- State of the FASTQ reading loop: the (never-appended-to) result vector,
the scratch buffer `current_sequence`, and the `read` flag. -/
structure FastqState where
  sequences : List Sequence
  current : Sequence
  read : Bool

/-- One step of the FASTQ reading loop (main.rs:45-59), in the source's
order: set `read` on `@`, clear on `+`, then push the line if `read`. -/
def fastq_step (st : FastqState) (line : Sequence) : FastqState :=
  let read1 := if startsWith line '@' then true else st.read
  let read2 := if startsWith line '+' then false else read1
  let cur1 := if startsWith line '+' then [] else st.current
  let cur2 := if read2 then cur1 ++ line else cur1
  { sequences := st.sequences, current := cur2, read := read2 }

/-- `get_sequences_from_fastq` (main.rs:35-61) on the file's lines: returns
the `sequences` vector, which the loop never appends to. -/
def get_sequences_from_fastq (lines : List Sequence) : List Sequence :=
  (lines.foldl fastq_step ⟨[], [], false⟩).sequences

/-- `path.ends_with(c)` for a one-character pattern. -/
def endsWith (path : Sequence) (c : Char) : Bool :=
  path.getLast? == some c

/-- `get_sequences` (main.rs:63-73): dispatch on the path's trailing
character; `none` models the `panic!` for an unsupported suffix. `lines`
stands for the lines of the file the path names. -/
def get_sequences (path : Sequence) (lines : List Sequence) :
    Option (List Sequence) :=
  if endsWith path 'a' then some (get_sequences_from_fasta lines)
  else if endsWith path 'q' then some (get_sequences_from_fastq lines)
  else none

/-! ### Byte-level model of `sequence[j..j+k]` (Rust `String` range indexing)

`sequence.len()` in the source is the UTF-8 byte length, and `&s[j..j+k]`
panics when `j` or `j+k` is not a character boundary. -/

/-- `str::len`: the UTF-8 byte length of the string. -/
def byteLen (s : Sequence) : Nat :=
  (s.map Char.utf8Size).sum

/-- Dropping `i` bytes of UTF-8 content: `none` when `i` is not a char
boundary or exceeds the byte length (Rust slicing panics there). -/
def dropBytes : Sequence → Nat → Option Sequence
  | s, 0 => some s
  | [], _ + 1 => none
  | c :: rest, i + 1 =>
      if c.utf8Size ≤ i + 1 then dropBytes rest (i + 1 - c.utf8Size) else none

/-- Taking `i` bytes of UTF-8 content: `none` when `i` is not a char
boundary or exceeds the byte length (Rust slicing panics there). -/
def takeBytes : Sequence → Nat → Option Sequence
  | _, 0 => some []
  | [], _ + 1 => none
  | c :: rest, i + 1 =>
      if c.utf8Size ≤ i + 1 then
        (takeBytes rest (i + 1 - c.utf8Size)).map (fun t => c :: t)
      else none

/-- The byte slice `&sequence[j..j+k]`: `none` models the char-boundary
or out-of-bounds panic of Rust `String` range indexing. -/
def byteSlice (s : Sequence) (j k : Nat) : Option Sequence :=
  (dropBytes s j).bind (fun t => takeBytes t k)

/-- Byte-faithful Shard Counter (main.rs:103-105): the loop runs over byte
offsets `0..(s.len() - k)` with `s.len()` the UTF-8 byte length; `none`
models both the underflow panic for `k > len` and the char-boundary panic
of `sequence[j..j+k]` on multi-byte content. -/
def local_map_utf8 (s : Sequence) (k : Nat) : Option FreqMap :=
  if byteLen s < k then none
  else (List.range (byteLen s - k)).foldlM
      (fun m j => (byteSlice s j k).map (fun w => bump m w)) emptyMap

/-! ### u32-faithful model of the frequency maps

The source counts in `HashMap<String, u32>`: entries are explicit key/value
pairs and the increments wrap modulo 2^32 in a release build (a debug build
panics at the overflowing increment). Modelled as association lists folded
exactly like the source's maps. -/

/-- `*map.entry(w).or_insert(0) += v` on an explicit entry list, the count
wrapping as `u32`: update the entry in place, or append a fresh one. -/
def entryAdd (m : List (Sequence × Nat)) (w : Sequence) (v : Nat) :
    List (Sequence × Nat) :=
  match m with
  | [] => [(w, v % 2 ^ 32)]
  | (x, c) :: rest =>
      if x = w then (x, (c + v) % 2 ^ 32) :: rest
      else (x, c) :: entryAdd rest w v

/-- The value a map holds for a key (`0` when the key is absent). -/
def valOf (m : List (Sequence × Nat)) (x : Sequence) : Nat :=
  (m.lookup x).getD 0

/-- The per-unit local map of main.rs:103-105 with explicit `u32` entries. -/
def local_map_u32 (s : Sequence) (k : Nat) : Option (List (Sequence × Nat)) :=
  if s.length < k then none
  else some ((windowList s k).foldl (fun m w => entryAdd m w 1) [])

/-- The merge loop of main.rs:109-111 on explicit `u32` entries: for each
`(key, value)` of the local map, add `value` to the global entry. -/
def mergeInto_u32 (g l : List (Sequence × Nat)) : List (Sequence × Nat) :=
  l.foldl (fun g kv => entryAdd g kv.1 kv.2) g

/-- The merge fold over all sequences with explicit `u32` entries. -/
def merged_counts_u32 (seqs : List Sequence) (k : Nat) :
    Option (List (Sequence × Nat)) :=
  seqs.foldlM (fun g s => (local_map_u32 s k).map (fun l => mergeInto_u32 g l)) []

/-- `count_kmers` (main.rs:75-116) with explicit `u32` entries. -/
def count_kmers_u32 (seqs : List Sequence) (k : Nat) :
    Option (List (Sequence × Nat)) :=
  if progress_faults seqs then none else merged_counts_u32 seqs k

/-- An input whose first sequence makes one k-mer count wrap to zero for
k = 1: `2^32 + 1` copies of `A` give `2^32` counted windows (the loop's
exclusive bound drops the last one), and nine `CC` filler sequences keep
the progress computation from faulting. -/
def overflowInput : List Sequence :=
  List.replicate (2 ^ 32 + 1) 'A' :: List.replicate 9 ['C', 'C']

/-! ### Helper lemmas -/

/-- Applying the local-map fold at a key counts that key's occurrences among
the enumerated windows. -/
lemma foldl_bump_apply (l : List Sequence) (m : FreqMap) (x : Sequence) :
    (l.foldl bump m) x = m x + l.count x := by
  induction l generalizing m with
  | nil => simp
  | cons a l ih =>
      rw [List.foldl_cons, ih]
      by_cases hxa : x = a
      · simp only [bump, if_pos hxa, List.count_cons, hxa]
        simp
        omega
      · simp only [bump, if_neg hxa, List.count_cons]
        have : ¬ (a = x) := fun h => hxa h.symm
        simp [this]

/-- Every window the loop enumerates has length exactly `k` when `k` does not
exceed the sequence's length. -/
lemma windowList_mem_length (s : Sequence) (k : Nat) (w : Sequence)
    (hk : k ≤ s.length) (hw : w ∈ windowList s k) : w.length = k := by
  simp only [windowList, List.mem_map, List.mem_range] at hw
  obtain ⟨j, hj, rfl⟩ := hw
  simp only [slice, List.length_take, List.length_drop]
  omega

/-- The merge fold from an arbitrary global accumulator, characterized:
it succeeds exactly when every sequence is at least `k` long, and then each
key's value is the accumulator's plus the total window count. -/
lemma foldlM_merge_char (seqs : List Sequence) (k : Nat) (g : FreqMap) :
    seqs.foldlM (fun g s => (local_map s k).map (mergeInto g)) g
      = if ∀ s ∈ seqs, k ≤ s.length
        then some (fun x =>
          g x + (seqs.map (fun s => (windowList s k).count x)).sum)
        else none := by
  induction seqs generalizing g with
  | nil =>
      rw [if_pos (by simp), List.foldlM_nil]
      rfl
  | cons s rest ih =>
      rw [List.foldlM_cons]
      by_cases hs : s.length < k
      · rw [if_neg (by push_neg; exact ⟨s, List.mem_cons_self s rest, hs⟩)]
        have hl : local_map s k = none := by simp [local_map, hs]
        rw [hl]
        rfl
      · have hl : local_map s k
            = some ((windowList s k).foldl bump emptyMap) := by
          simp [local_map, hs]
        rw [hl, Option.map_some']
        simp only [Option.bind_eq_bind, Option.some_bind]
        rw [ih]
        by_cases hrest : ∀ t ∈ rest, k ≤ t.length
        · rw [if_pos hrest,
            if_pos (show ∀ t ∈ s :: rest, k ≤ t.length by
              intro t ht
              rcases List.mem_cons.mp ht with h | h
              · subst h; exact Nat.le_of_not_lt hs
              · exact hrest t h)]
          congr 1
          funext x
          have hb := foldl_bump_apply (windowList s k) emptyMap x
          simp only [List.map_cons, List.sum_cons, mergeInto, emptyMap] at hb ⊢
          omega
        · rw [if_neg hrest,
            if_neg (fun h => hrest (fun t ht => h t (List.mem_cons_of_mem s ht)))]

/-- The merge fold over all sequences, characterized: it succeeds exactly when
every sequence is at least `k` long, and then each key's value is the total
number of windows equal to that key across all sequences. -/
lemma merged_counts_char (seqs : List Sequence) (k : Nat) :
    merged_counts seqs k
      = if ∀ s ∈ seqs, k ≤ s.length
        then some (fun x => (seqs.map (fun s => (windowList s k).count x)).sum)
        else none := by
  rw [merged_counts, foldlM_merge_char]
  split
  · congr 1
    funext x
    simp [emptyMap]
  · rfl

/-- Merging local maps in any order yields the same global map: the merge
fold is invariant under permutation of the sequence list. -/
lemma merged_counts_perm (seqs seqs' : List Sequence) (k : Nat)
    (h : seqs.Perm seqs') : merged_counts seqs k = merged_counts seqs' k := by
  rw [merged_counts_char, merged_counts_char]
  by_cases hall : ∀ s ∈ seqs, k ≤ s.length
  · rw [if_pos hall, if_pos (fun s hs => hall s (h.mem_iff.mpr hs))]
    congr 1
    funext x
    exact (h.map (fun s => (windowList s k).count x)).sum_eq
  · rw [if_neg hall,
      if_neg (fun h' => hall (fun s hs => h' s (h.mem_iff.mp hs)))]

/-- Splitting the sequence list anywhere and merging the two parts' global
maps gives the same result as one merge fold over the whole list. -/
lemma merged_counts_append (a b : List Sequence) (k : Nat) :
    merged_counts (a ++ b) k
      = (merged_counts a k).bind
          (fun g => (merged_counts b k).map (mergeInto g)) := by
  rw [merged_counts_char, merged_counts_char, merged_counts_char]
  by_cases ha : ∀ s ∈ a, k ≤ s.length
  · by_cases hb : ∀ s ∈ b, k ≤ s.length
    · rw [if_pos ha, if_pos hb,
        if_pos (List.forall_mem_append.mpr ⟨ha, hb⟩)]
      simp only [Option.some_bind, Option.map_some']
      congr 1
      funext x
      simp [mergeInto, List.sum_append]
    · rw [if_pos ha, if_neg hb,
        if_neg (fun h => hb (List.forall_mem_append.mp h).2)]
      rfl
  · rw [if_neg ha, if_neg (fun h => ha (List.forall_mem_append.mp h).1)]
    rfl

/-- A monadic fold whose every step succeeds equals the plain fold. -/
lemma foldlM_eq_foldl_of_some {α β : Type} (l : List α) (f : β → α → Option β)
    (g : β → α → β) (hfg : ∀ b a, a ∈ l → f b a = some (g b a)) (b : β) :
    l.foldlM f b = some (l.foldl g b) := by
  induction l generalizing b with
  | nil => rfl
  | cons a rest ih =>
      rw [List.foldlM_cons, hfg b a (List.mem_cons_self a rest)]
      simp only [Option.bind_eq_bind, Option.some_bind]
      rw [List.foldl_cons]
      exact ih (fun b' a' ha' => hfg b' a' (List.mem_cons_of_mem a ha')) (g b a)

/-- On single-byte content the UTF-8 byte length is the character count. -/
lemma byteLen_ascii (s : Sequence) (h : ∀ c ∈ s, Char.utf8Size c = 1) :
    byteLen s = s.length := by
  induction s with
  | nil => rfl
  | cons c rest ih =>
      simp only [byteLen, List.map_cons, List.sum_cons, List.length_cons]
      rw [h c (List.mem_cons_self c rest)]
      have := ih (fun c' hc' => h c' (List.mem_cons_of_mem c hc'))
      simp only [byteLen] at this
      omega

/-- On single-byte content every byte offset is a char boundary: dropping
`j ≤ length` bytes succeeds and drops `j` characters. -/
lemma dropBytes_ascii (s : Sequence) (j : Nat)
    (h : ∀ c ∈ s, Char.utf8Size c = 1) (hj : j ≤ s.length) :
    dropBytes s j = some (s.drop j) := by
  induction s generalizing j with
  | nil =>
      cases j with
      | zero => rfl
      | succ i => simp at hj
  | cons c rest ih =>
      cases j with
      | zero => rfl
      | succ i =>
          have hc : c.utf8Size = 1 := h c (List.mem_cons_self c rest)
          simp only [dropBytes, hc]
          rw [if_pos (by omega)]
          have : i + 1 - 1 = i := by omega
          rw [this, List.drop_succ_cons]
          exact ih i (fun c' hc' => h c' (List.mem_cons_of_mem c hc'))
            (by simpa using hj)

/-- On single-byte content taking `k ≤ length` bytes succeeds and takes `k`
characters. -/
lemma takeBytes_ascii (s : Sequence) (k : Nat)
    (h : ∀ c ∈ s, Char.utf8Size c = 1) (hk : k ≤ s.length) :
    takeBytes s k = some (s.take k) := by
  induction s generalizing k with
  | nil =>
      cases k with
      | zero => rfl
      | succ i => simp at hk
  | cons c rest ih =>
      cases k with
      | zero => rfl
      | succ i =>
          have hc : c.utf8Size = 1 := h c (List.mem_cons_self c rest)
          simp only [takeBytes, hc]
          rw [if_pos (by omega)]
          have : i + 1 - 1 = i := by omega
          rw [this, ih i (fun c' hc' => h c' (List.mem_cons_of_mem c hc'))
            (by simpa using hk)]
          rfl

/-- On single-byte content the byte slice `&s[j..j+k]` succeeds and equals
the character slice. -/
lemma byteSlice_ascii (s : Sequence) (j k : Nat)
    (h : ∀ c ∈ s, Char.utf8Size c = 1) (hjk : j + k ≤ s.length) :
    byteSlice s j k = some (slice s j k) := by
  rw [byteSlice, dropBytes_ascii s j h (by omega)]
  simp only [Option.some_bind]
  rw [takeBytes_ascii (s.drop j) k
    (fun c hc => h c (List.drop_subset j s hc))
    (by rw [List.length_drop]; omega)]
  rfl

/-- On single-byte (ASCII) content the byte-faithful Shard Counter agrees
with the character-level one: every slice boundary is a char boundary. -/
lemma local_map_utf8_ascii (s : Sequence) (k : Nat)
    (h : ∀ c ∈ s, Char.utf8Size c = 1) :
    local_map_utf8 s k = local_map s k := by
  rw [local_map_utf8, local_map, byteLen_ascii s h]
  by_cases hlen : s.length < k
  · rw [if_pos hlen, if_pos hlen]
  · rw [if_neg hlen, if_neg hlen]
    rw [foldlM_eq_foldl_of_some _ _ (fun m j => bump m (slice s j k)) ?_ emptyMap]
    · congr 1
      rw [windowList, List.foldl_map]
    · intro m j hj
      rw [List.mem_range] at hj
      rw [byteSlice_ascii s j k h (by omega)]
      rfl

/-- The FASTQ loop never changes the `sequences` component of its state. -/
lemma fastq_fold_sequences (lines : List Sequence) (st : FastqState) :
    (lines.foldl fastq_step st).sequences = st.sequences := by
  induction lines generalizing st with
  | nil => rfl
  | cons l rest ih =>
      rw [List.foldl_cons, ih]
      rfl

/-- The FASTA loop never places an empty sequence in the result component of
its state. -/
lemma fasta_fold_no_empty (lines : List Sequence)
    (st : List Sequence × Sequence) (h : [] ∉ st.1) :
    [] ∉ (lines.foldl fasta_step st).1 := by
  induction lines generalizing st with
  | nil => exact h
  | cons l rest ih =>
      rw [List.foldl_cons]
      apply ih
      unfold fasta_step
      by_cases hm : startsWith l '>'
      · rw [if_pos hm]
        by_cases he : st.2.isEmpty
        · rw [if_pos he]
          exact h
        · rw [if_neg he]
          intro hmem
          rcases List.mem_append.mp hmem with h1 | h1
          · exact h h1
          · rw [List.mem_singleton] at h1
            rw [← h1] at he
            exact he rfl
      · rw [if_neg hm]
        exact h

/-! ### Lemmas about the u32 entry-list maps -/

/-- A key absent from the key column is not found. -/
lemma lookup_eq_none_of_not_mem (m : List (Sequence × Nat)) (x : Sequence)
    (h : x ∉ m.map Prod.fst) : m.lookup x = none := by
  induction m with
  | nil => rfl
  | cons e rest ih =>
      obtain ⟨y, c⟩ := e
      simp only [List.map_cons, List.mem_cons, not_or] at h
      rw [List.lookup_cons, beq_eq_false_iff_ne.mpr h.1]
      exact ih h.2

/-- `entryAdd` at the touched key: the old value plus `v`, wrapped. -/
lemma lookup_entryAdd_self (m : List (Sequence × Nat)) (w : Sequence)
    (v : Nat) : (entryAdd m w v).lookup w = some ((valOf m w + v) % 2 ^ 32) := by
  induction m with
  | nil => simp [entryAdd, valOf, List.lookup_cons]
  | cons e rest ih =>
      obtain ⟨x, c⟩ := e
      by_cases hxw : x = w
      · subst hxw
        rw [entryAdd, if_pos rfl, List.lookup_cons, beq_self_eq_true]
        simp [valOf, List.lookup_cons]
      · rw [entryAdd, if_neg hxw, List.lookup_cons,
          beq_eq_false_iff_ne.mpr (fun h : w = x => hxw h.symm), ih]
        have : valOf ((x, c) :: rest) w = valOf rest w := by
          simp [valOf, List.lookup_cons,
            beq_eq_false_iff_ne.mpr (fun h : w = x => hxw h.symm)]
        rw [this]

/-- `entryAdd` leaves every other key's lookup unchanged. -/
lemma lookup_entryAdd_other (m : List (Sequence × Nat)) (w : Sequence)
    (v : Nat) (x : Sequence) (hx : x ≠ w) :
    (entryAdd m w v).lookup x = m.lookup x := by
  induction m with
  | nil => simp [entryAdd, List.lookup_cons, beq_eq_false_iff_ne.mpr hx]
  | cons e rest ih =>
      obtain ⟨y, c⟩ := e
      by_cases hyw : y = w
      · subst hyw
        rw [entryAdd, if_pos rfl, List.lookup_cons, List.lookup_cons,
          beq_eq_false_iff_ne.mpr hx]
      · rw [entryAdd, if_neg hyw, List.lookup_cons, List.lookup_cons, ih]

/-- A key found after `entryAdd` was already present or is the added one. -/
lemma lookup_entryAdd_isSome (m : List (Sequence × Nat)) (w : Sequence)
    (v : Nat) (x : Sequence)
    (h : ((entryAdd m w v).lookup x).isSome = true) :
    (m.lookup x).isSome = true ∨ x = w := by
  by_cases hx : x = w
  · exact Or.inr hx
  · rw [lookup_entryAdd_other m w v x hx] at h
    exact Or.inl h

/-- `entryAdd` keeps every wrapped value below `2^32`. -/
lemma valOf_entryAdd_lt (m : List (Sequence × Nat)) (w : Sequence) (v : Nat)
    (h : ∀ y, valOf m y < 2 ^ 32) (y : Sequence) :
    valOf (entryAdd m w v) y < 2 ^ 32 := by
  by_cases hy : y = w
  · subst hy
    rw [valOf, lookup_entryAdd_self]
    exact Nat.mod_lt _ (by positivity)
  · rw [valOf, lookup_entryAdd_other m w v y hy]
    exact h y

/-- A key of `entryAdd`'s result is a key of the input or the added one. -/
lemma mem_keys_entryAdd (m : List (Sequence × Nat)) (w : Sequence) (v : Nat)
    (y : Sequence) (h : y ∈ (entryAdd m w v).map Prod.fst) :
    y ∈ m.map Prod.fst ∨ y = w := by
  induction m with
  | nil =>
      simp only [entryAdd, List.map_cons, List.map_nil, List.mem_singleton] at h
      exact Or.inr h
  | cons e rest ih =>
      obtain ⟨x, c⟩ := e
      by_cases hxw : x = w
      · subst hxw
        rw [entryAdd, if_pos rfl] at h
        simp only [List.map_cons, List.mem_cons] at h
        rcases h with h | h
        · exact Or.inl (by simp [h])
        · exact Or.inl (by simp [h])
      · rw [entryAdd, if_neg hxw] at h
        simp only [List.map_cons, List.mem_cons] at h
        rcases h with h | h
        · exact Or.inl (by simp [h])
        · rcases ih h with h' | h'
          · exact Or.inl (List.mem_cons_of_mem _ h')
          · exact Or.inr h'

/-- `entryAdd` keeps the key column duplicate-free. -/
lemma entryAdd_keys_nodup (m : List (Sequence × Nat)) (w : Sequence)
    (v : Nat) (h : (m.map Prod.fst).Nodup) :
    ((entryAdd m w v).map Prod.fst).Nodup := by
  induction m with
  | nil => simp [entryAdd]
  | cons e rest ih =>
      obtain ⟨x, c⟩ := e
      simp only [List.map_cons, List.nodup_cons] at h
      by_cases hxw : x = w
      · subst hxw
        rw [entryAdd, if_pos rfl]
        simp only [List.map_cons, List.nodup_cons]
        exact h
      · rw [entryAdd, if_neg hxw]
        simp only [List.map_cons, List.nodup_cons]
        refine ⟨fun hmem => ?_, ih h.2⟩
        rcases mem_keys_entryAdd rest w v x hmem with h' | h'
        · exact h.1 h'
        · exact hxw h'

/-- Folding unit increments over a window list: each key's value is its old
value plus the number of windows equal to it, wrapped as `u32`. -/
lemma valOf_foldl_entryAdd_one (ws : List Sequence)
    (m0 : List (Sequence × Nat)) (x : Sequence)
    (hb : ∀ y, valOf m0 y < 2 ^ 32) :
    valOf (ws.foldl (fun m w => entryAdd m w 1) m0) x
      = (valOf m0 x + ws.count x) % 2 ^ 32 := by
  induction ws generalizing m0 with
  | nil =>
      simp only [List.foldl_nil, List.count_nil, Nat.add_zero]
      exact (Nat.mod_eq_of_lt (hb x)).symm
  | cons w rest ih =>
      rw [List.foldl_cons, ih (entryAdd m0 w 1) (valOf_entryAdd_lt m0 w 1 hb)]
      by_cases hxw : x = w
      · subst hxw
        rw [valOf, lookup_entryAdd_self]
        simp only [Option.getD_some, List.count_cons, beq_self_eq_true,
          if_pos rfl]
        rw [Nat.mod_add_mod]
        congr 1
        simp only [if_pos trivial]
        omega
      · rw [valOf, lookup_entryAdd_other m0 w 1 x hxw, List.count_cons,
          beq_eq_false_iff_ne.mpr (fun h : w = x => hxw h.symm)]
        simp
        rfl

/-- A key found after the window fold was present before or is a window. -/
lemma lookup_foldl_entryAdd_one_isSome (ws : List Sequence)
    (m0 : List (Sequence × Nat)) (x : Sequence)
    (h : ((ws.foldl (fun m w => entryAdd m w 1) m0).lookup x).isSome = true) :
    (m0.lookup x).isSome = true ∨ x ∈ ws := by
  induction ws generalizing m0 with
  | nil => exact Or.inl h
  | cons w rest ih =>
      rw [List.foldl_cons] at h
      rcases ih (entryAdd m0 w 1) h with h' | h'
      · rcases lookup_entryAdd_isSome m0 w 1 x h' with h'' | h''
        · exact Or.inl h''
        · exact Or.inr (h'' ▸ List.mem_cons_self w rest)
      · exact Or.inr (List.mem_cons_of_mem w h')

/-- The window fold keeps the key column duplicate-free. -/
lemma foldl_entryAdd_one_nodup (ws : List Sequence)
    (m0 : List (Sequence × Nat)) (h : (m0.map Prod.fst).Nodup) :
    (((ws.foldl (fun m w => entryAdd m w 1) m0)).map Prod.fst).Nodup := by
  induction ws generalizing m0 with
  | nil => exact h
  | cons w rest ih =>
      rw [List.foldl_cons]
      exact ih (entryAdd m0 w 1) (entryAdd_keys_nodup m0 w 1 h)

/-- The merge loop on entry lists: pointwise wrapped addition, provided the
local map's keys are duplicate-free (as the window fold guarantees). -/
lemma valOf_mergeInto_u32 (l g : List (Sequence × Nat)) (x : Sequence)
    (hg : ∀ y, valOf g y < 2 ^ 32) (hl : (l.map Prod.fst).Nodup) :
    valOf (mergeInto_u32 g l) x = (valOf g x + valOf l x) % 2 ^ 32 := by
  induction l generalizing g with
  | nil =>
      simp only [mergeInto_u32, List.foldl_nil]
      have : valOf ([] : List (Sequence × Nat)) x = 0 := rfl
      rw [this, Nat.add_zero]
      exact (Nat.mod_eq_of_lt (hg x)).symm
  | cons e rest ih =>
      obtain ⟨y, v0⟩ := e
      simp only [List.map_cons, List.nodup_cons] at hl
      rw [mergeInto_u32, List.foldl_cons]
      have hstep : rest.foldl (fun g kv => entryAdd g kv.1 kv.2)
          (entryAdd g y v0) = mergeInto_u32 (entryAdd g y v0) rest := rfl
      rw [hstep, ih (entryAdd g y v0) (valOf_entryAdd_lt g y v0 hg) hl.2]
      by_cases hxy : x = y
      · subst hxy
        have hrest : valOf rest x = 0 := by
          rw [valOf, lookup_eq_none_of_not_mem rest x hl.1]
          rfl
        have hcons : valOf ((x, v0) :: rest) x = v0 := by
          simp [valOf, List.lookup_cons]
        rw [hrest, hcons, Nat.add_zero, valOf, lookup_entryAdd_self]
        simp only [Option.getD_some]
        rw [Nat.mod_mod_of_dvd _ dvd_rfl]
      · have hcons : valOf ((y, v0) :: rest) x = valOf rest x := by
          simp [valOf, List.lookup_cons, beq_eq_false_iff_ne.mpr hxy]
        rw [hcons, valOf, lookup_entryAdd_other g y v0 x hxy]
        rfl

/-- A key found after the merge loop was in the global or the local map. -/
lemma lookup_mergeInto_u32_isSome (l g : List (Sequence × Nat)) (x : Sequence)
    (h : ((mergeInto_u32 g l).lookup x).isSome = true) :
    (g.lookup x).isSome = true ∨ (l.lookup x).isSome = true := by
  induction l generalizing g with
  | nil => exact Or.inl h
  | cons e rest ih =>
      obtain ⟨y, v0⟩ := e
      rw [mergeInto_u32, List.foldl_cons] at h
      have hstep : rest.foldl (fun g kv => entryAdd g kv.1 kv.2)
          (entryAdd g y v0) = mergeInto_u32 (entryAdd g y v0) rest := rfl
      rw [hstep] at h
      rcases ih (entryAdd g y v0) h with h' | h'
      · rcases lookup_entryAdd_isSome g y v0 x h' with h'' | h''
        · exact Or.inl h''
        · subst h''
          refine Or.inr ?_
          simp [List.lookup_cons]
      · by_cases hxy : x = y
        · subst hxy
          refine Or.inr ?_
          simp [List.lookup_cons]
        · refine Or.inr ?_
          rw [List.lookup_cons, beq_eq_false_iff_ne.mpr hxy]
          exact h'

/-- The merge loop keeps every wrapped value below `2^32`. -/
lemma valOf_mergeInto_u32_lt (l g : List (Sequence × Nat))
    (hg : ∀ y, valOf g y < 2 ^ 32) (y : Sequence) :
    valOf (mergeInto_u32 g l) y < 2 ^ 32 := by
  induction l generalizing g with
  | nil => exact hg y
  | cons e rest ih =>
      rw [mergeInto_u32, List.foldl_cons]
      exact ih (entryAdd g e.1 e.2) (valOf_entryAdd_lt g e.1 e.2 hg)

/-- The u32 merge fold faults exactly like the `Nat`-count one: a too-short
sequence panics the run. -/
lemma merged_u32_fold_none (seqs : List Sequence) (k : Nat)
    (g0 : List (Sequence × Nat)) (hbad : ∃ s ∈ seqs, s.length < k) :
    seqs.foldlM
      (fun g s => (local_map_u32 s k).map (fun l => mergeInto_u32 g l)) g0
      = none := by
  induction seqs generalizing g0 with
  | nil =>
      obtain ⟨s, hs, _⟩ := hbad
      cases hs
  | cons s rest ih =>
      rw [List.foldlM_cons]
      by_cases hs : s.length < k
      · rw [local_map_u32, if_pos hs]
        rfl
      · obtain ⟨t, ht, htk⟩ := hbad
        rcases List.mem_cons.mp ht with h | h
        · exact absurd (h ▸ htk) hs
        · rw [local_map_u32, if_neg hs]
          simp only [Option.map_some', Option.bind_eq_bind, Option.some_bind]
          exact ih _ ⟨t, h, htk⟩

/-- The u32 merge fold, characterized: when every sequence is long enough it
returns a map whose every value is the accumulator's plus the total window
count, wrapped; every key present was present before or is a counted
window; and every value stays below `2^32`. -/
lemma merged_u32_fold_some (seqs : List Sequence) (k : Nat)
    (g0 : List (Sequence × Nat)) (hall : ∀ s ∈ seqs, k ≤ s.length)
    (hb : ∀ y, valOf g0 y < 2 ^ 32) :
    ∃ g, seqs.foldlM
        (fun g s => (local_map_u32 s k).map (fun l => mergeInto_u32 g l)) g0
        = some g
      ∧ (∀ x, valOf g x
          = (valOf g0 x
              + (seqs.map (fun s => (windowList s k).count x)).sum) % 2 ^ 32)
      ∧ (∀ x, ((g.lookup x).isSome = true) →
          ((g0.lookup x).isSome = true ∨ ∃ s ∈ seqs, x ∈ windowList s k))
      ∧ (∀ y, valOf g y < 2 ^ 32) := by
  induction seqs generalizing g0 with
  | nil =>
      refine ⟨g0, rfl, fun x => ?_, fun x h => Or.inl h, hb⟩
      simp only [List.map_nil, List.sum_nil, Nat.add_zero]
      exact (Nat.mod_eq_of_lt (hb x)).symm
  | cons s rest ih =>
      have hk : k ≤ s.length := hall s (List.mem_cons_self s rest)
      have hLg := foldl_entryAdd_one_nodup (windowList s k) [] (by simp)
      rw [List.foldlM_cons, local_map_u32, if_neg (Nat.not_lt.mpr hk)]
      simp only [Option.map_some', Option.bind_eq_bind, Option.some_bind]
      set Lg := (windowList s k).foldl (fun m w => entryAdd m w 1) [] with hLgdef
      have hb1 : ∀ y, valOf (mergeInto_u32 g0 Lg) y < 2 ^ 32 :=
        valOf_mergeInto_u32_lt Lg g0 hb
      obtain ⟨g, hg, hval, hpres, hb'⟩ :=
        ih (mergeInto_u32 g0 Lg) (fun t ht => hall t (List.mem_cons_of_mem s ht)) hb1
      refine ⟨g, hg, fun x => ?_, fun x hx => ?_, hb'⟩
      · rw [hval x, valOf_mergeInto_u32 Lg g0 x hb hLg,
          valOf_foldl_entryAdd_one (windowList s k) [] x (by intro y; exact Nat.pos_pow_of_pos 32 (by norm_num))]
        have h0 : valOf ([] : List (Sequence × Nat)) x = 0 := rfl
        rw [h0, Nat.zero_add]
        rw [Nat.mod_add_mod, Nat.add_right_comm, Nat.add_mod_mod]
        simp only [List.map_cons, List.sum_cons]
        congr 1
        omega
      · rcases hpres x hx with h' | h'
        · rcases lookup_mergeInto_u32_isSome Lg g0 x h' with h'' | h''
          · exact Or.inl h''
          · have := lookup_foldl_entryAdd_one_isSome (windowList s k) [] x h''
            rcases this with h3 | h3
            · cases h3
            · exact Or.inr ⟨s, List.mem_cons_self s rest, h3⟩
        · obtain ⟨t, ht, htw⟩ := h'
          exact Or.inr ⟨t, List.mem_cons_of_mem s ht, htw⟩

/-- One full-length window of a run of equal characters, `k = 1`: the loop
enumerates `m` windows (the exclusive bound drops the last one). -/
lemma windowList_replicate (c : Char) (m : Nat) :
    windowList (List.replicate (m + 1) c) 1 = List.replicate m [c] := by
  unfold windowList
  rw [List.length_replicate, Nat.add_sub_cancel]
  refine List.eq_replicate_iff.mpr ⟨by simp, ?_⟩
  intro b hb
  obtain ⟨j, hj, rfl⟩ := List.mem_map.mp hb
  rw [List.mem_range] at hj
  unfold slice
  rw [List.drop_replicate, List.take_replicate]
  have : min 1 (m + 1 - j) = 1 := by omega
  rw [this, List.replicate_one]

/-- Unit increments of one fixed key, wrapped as `u32`. -/
lemma foldl_entryAdd_replicate (w : Sequence) (n c : Nat) (hc : c < 2 ^ 32) :
    (List.replicate n w).foldl (fun m v => entryAdd m v 1) [(w, c)]
      = [(w, (c + n) % 2 ^ 32)] := by
  induction n generalizing c with
  | zero =>
      simp only [List.replicate_zero, List.foldl_nil, Nat.add_zero]
      rw [Nat.mod_eq_of_lt hc]
  | succ n ih =>
      rw [List.replicate_succ, List.foldl_cons]
      have h1 : entryAdd [(w, c)] w 1 = [(w, (c + 1) % 2 ^ 32)] := by
        rw [entryAdd, if_pos rfl]
      rw [h1, ih ((c + 1) % 2 ^ 32) (Nat.mod_lt _ (by positivity)),
        Nat.mod_add_mod]
      congr 2
      omega

/-- The same, starting from the empty map. -/
lemma foldl_entryAdd_replicate_nil (w : Sequence) (n : Nat) (hn : 0 < n) :
    (List.replicate n w).foldl (fun m v => entryAdd m v 1) []
      = [(w, n % 2 ^ 32)] := by
  obtain ⟨m, rfl⟩ : ∃ m, n = m + 1 := ⟨n - 1, by omega⟩
  rw [List.replicate_succ, List.foldl_cons]
  have h1 : entryAdd [] w 1 = [(w, 1)] := by
    rw [entryAdd]
    norm_num
  rw [h1, foldl_entryAdd_replicate w m 1 (by norm_num)]
  congr 2
  omega

/-- The local u32 map of `2^32 + 1` copies of `A` at k = 1: the `2^32`
counted windows wrap the entry for `"A"` to value `0`. -/
lemma local_map_u32_overflow :
    local_map_u32 (List.replicate (2 ^ 32 + 1) 'A') 1 = some [(['A'], 0)] := by
  rw [local_map_u32, List.length_replicate,
    if_neg (Nat.not_lt.mpr (Nat.le_add_left 1 (2 ^ 32))),
    windowList_replicate,
    foldl_entryAdd_replicate_nil ['A'] (2 ^ 32) (by positivity),
    Nat.mod_self]

/-! ### Claim theorems -/

/-- Claim C1 (evidence for the code bug): on the spec's example
`["AAAA", "TAAA"]` with k = 2 the engine does not return the claimed mapping
`{"AA": 5, "TA": 1}` at all — the run panics in the progress computation
(2 sequences, so the divisor `2 / 10` is zero); and even the merge fold on
its own yields `"AA" ↦ 3` and `"TA" ↦ 1`, not `"AA" ↦ 5`, because the
window loop's exclusive upper bound `len - k` drops each sequence's last
full-length window. -/
theorem count_kmers_multiseq_diverges :
    count_kmers [['A','A','A','A'], ['T','A','A','A']] 2 = none ∧
    (merged_counts [['A','A','A','A'], ['T','A','A','A']] 2).getD emptyMap
        ['A','A'] = 3 ∧
    (merged_counts [['A','A','A','A'], ['T','A','A','A']] 2).getD emptyMap
        ['T','A'] = 1 :=
  ⟨rfl, by decide, by decide⟩

/-- Claim C2 (evidence for the code bug): the loop
`for j in 0..(sequence.len() - k)` enumerates only the offsets
`[0, n-k)`, dropping the final window at offset `n-k`: on `"AAAA"` with
k = 2 it enumerates the windows at offsets 0 and 1 only, so the local map
holds `"AA" ↦ 2`, not the claimed `"AA" ↦ 3`. -/
theorem local_map_drops_last_window :
    (local_map ['A','A','A','A'] 2).getD emptyMap ['A','A'] = 2 ∧
    windowList ['A','A','A','A'] 2 = [['A','A'], ['A','A']] :=
  ⟨by decide, by decide⟩

/-- Claim C3: the global mapping is independent of scheduling and
partitioning — merging the per-sequence local maps in any permuted order
yields the same result (`count_kmers` is invariant under permutation of the
sequence list, faults included), and merging the global maps of any two-way
split of the list equals the merge fold over the whole list. -/
theorem count_kmers_schedule_independent (seqs seqs' a b : List Sequence)
    (k : Nat) (hperm : seqs.Perm seqs') :
    count_kmers seqs k = count_kmers seqs' k ∧
    merged_counts (a ++ b) k
      = (merged_counts a k).bind
          (fun g => (merged_counts b k).map (mergeInto g)) := by
  refine ⟨?_, merged_counts_append a b k⟩
  rw [count_kmers, count_kmers, progress_faults, progress_faults,
    hperm.length_eq, merged_counts_perm seqs seqs' k hperm]

/-- Claim C3 witness: the theorem applied to a concrete shuffled pair of
lists and a concrete split. -/
theorem count_kmers_schedule_independent_witness :
    count_kmers [['A','C'], ['G','T']] 1 = count_kmers [['G','T'], ['A','C']] 1 ∧
    merged_counts ([['A','C']] ++ [['G','T']]) 1
      = (merged_counts [['A','C']] 1).bind
          (fun g => (merged_counts [['G','T']] 1).map (mergeInto g)) :=
  count_kmers_schedule_independent [['A','C'], ['G','T']] [['G','T'], ['A','C']]
    [['A','C']] [['G','T']] 1 (List.Perm.swap ['G','T'] ['A','C'] [])

/-- Claim C4 (evidence for the code bug): when `k` exceeds the sequence
length the unit does not contribute zero entries — `sequence.len() - k`
underflows and the unit panics, modelled by `none`. -/
theorem local_map_k_exceeds_length_faults (s : Sequence) (k : Nat)
    (h : s.length < k) : local_map s k = none := by
  simp [local_map, h]

/-- Claim C4 witness: the spec's concrete case, a sequence of length 3 with
k = 5. -/
theorem local_map_k_exceeds_length_faults_witness :
    local_map ['A','C','G'] 5 = none :=
  local_map_k_exceeds_length_faults ['A','C','G'] 5 (by decide)

/-- Claim C5 (evidence for the code bug): FASTQ ingestion loses every
record — the loop only clears its scratch buffer and never appends to the
result vector, so the spec's single-record file yields no sequence at all,
and in fact every FASTQ input yields the empty list. -/
theorem fastq_extraction_returns_nothing :
    get_sequences_from_fastq
        [['@','r','1'], ['A','C','G','T'], ['+'], ['I','I','I','I']] = [] ∧
    ∀ lines : List Sequence, get_sequences_from_fastq lines = [] :=
  ⟨rfl, fun lines => fastq_fold_sequences lines ⟨[], [], false⟩⟩

/-- Claim C6 (evidence for the code bug): with at least one but fewer than
ten sequences, the divisor `sequences.len() / 10` of the progress
computation is zero and the first processed unit panics on `% 0`, so the
counting run faults instead of completing. -/
theorem progress_mod_by_zero_faults (seqs : List Sequence) (k : Nat)
    (h1 : seqs ≠ []) (h2 : seqs.length < 10) :
    count_kmers seqs k = none := by
  have hp : progress_faults seqs = true := by
    simp only [progress_faults, Bool.and_eq_true, bne_iff_ne, beq_iff_eq]
    exact ⟨fun hlen => h1 (List.length_eq_zero.mp hlen), Nat.div_eq_of_lt h2⟩
  rw [count_kmers, if_pos hp]

/-- Claim C6 witness: a single-sequence input faults. -/
theorem progress_mod_by_zero_faults_witness :
    count_kmers [['A','A','A','A']] 2 = none :=
  progress_mod_by_zero_faults [['A','A','A','A']] 2 (by decide) (by decide)

/-- Claim C7 counterexample: non-marker lines before the first `>` marker
are NOT ignored — on the input `ACGT\n>r1\nTTTT\n` the leading line `ACGT`
is emitted as a Sequence when the first marker arrives. -/
theorem fasta_leading_lines_emitted :
    ['A','C','G','T'] ∈ get_sequences_from_fasta
        [['A','C','G','T'], ['>','r','1'], ['T','T','T','T']] := by
  decide

/-- Claim C7 as amended: non-marker lines before the first `>` marker are
accumulated and emitted as a Sequence when the first marker (or end of
input) is reached — as on the concrete input below — and a record with no
non-marker lines is dropped, so no empty Sequence is ever emitted. -/
theorem fasta_no_empty_records (lines : List Sequence) (s : Sequence)
    (hs : s ∈ get_sequences_from_fasta lines) :
    s ≠ [] ∧
    get_sequences_from_fasta
        [['A','C','G','T'], ['>','r','1'], ['T','T','T','T']]
      = [['A','C','G','T'], ['T','T','T','T']] := by
  refine ⟨?_, by decide⟩
  intro hnil
  subst hnil
  rw [get_sequences_from_fasta] at hs
  have h0 : ([] : Sequence) ∉ (lines.foldl fasta_step ([], [])).1 :=
    fasta_fold_no_empty lines ([], []) (by simp)
  by_cases he : (lines.foldl fasta_step ([], [])).2.isEmpty
  · rw [if_pos he] at hs
    exact h0 hs
  · rw [if_neg he] at hs
    rcases List.mem_append.mp hs with h1 | h1
    · exact h0 h1
    · rw [List.mem_singleton] at h1
      rw [← h1] at he
      exact he rfl

/-- Claim C7 witness for the amended statement: the file `>r1\nA\n` yields
the one nonempty sequence `A`. -/
theorem fasta_no_empty_records_witness :
    (['A'] : Sequence) ≠ [] ∧
    get_sequences_from_fasta
        [['A','C','G','T'], ['>','r','1'], ['T','T','T','T']]
      = [['A','C','G','T'], ['T','T','T','T']] :=
  fasta_no_empty_records [['>','r','1'], ['A']] ['A'] (by decide)

/-- Claim C8: format dispatch by the path's trailing character — `a` selects
FASTA, `q` selects FASTQ, anything else fails with the unsupported-format
panic instead of returning a result. -/
theorem format_dispatch_by_suffix (path : Sequence) (lines : List Sequence) :
    (path.getLast? = some 'a' →
      get_sequences path lines = some (get_sequences_from_fasta lines)) ∧
    (path.getLast? = some 'q' →
      get_sequences path lines = some (get_sequences_from_fastq lines)) ∧
    (path.getLast? ≠ some 'a' → path.getLast? ≠ some 'q' →
      get_sequences path lines = none) := by
  refine ⟨fun ha => ?_, fun hq => ?_, fun ha hq => ?_⟩
  · simp [get_sequences, endsWith, ha]
  · simp [get_sequences, endsWith, hq]
  · simp [get_sequences, endsWith, ha, hq]

/-- Claim C9 counterexample: the counting loop does NOT accept every
content without faulting for 0 < k ≤ length — on the two-character sequence
`éA` (three bytes) with k = 1 the slice `sequence[0..1]` ends inside the
two-byte character `é`, and Rust `String` range indexing panics on that
char-boundary violation. -/
theorem shard_counter_boundary_fault :
    0 < 1 ∧ 1 ≤ byteLen ['é', 'A'] ∧ 1 ≤ (['é', 'A'] : Sequence).length ∧
    local_map_utf8 ['é', 'A'] 1 = none :=
  ⟨by decide, by decide, by decide, rfl⟩

/-- Claim C9 as amended: the counting loop never interprets character case
or symbol validity, and on single-byte (ASCII) content — where every window
boundary is a char boundary — it accepts any content without faulting for
0 < k ≤ length, agreeing with the character-level counter; k-mer identity
is case-sensitive: in `aAaA` with k = 1 the keys `a` and `A` are distinct
and counted separately (the loop enumerates offsets 0, 1, 2 only). -/
theorem shard_counter_ascii_opaque (s : Sequence) (k : Nat)
    (hascii : ∀ c ∈ s, Char.utf8Size c = 1) (_h0 : 0 < k)
    (hk : k ≤ s.length) :
    local_map_utf8 s k = local_map s k ∧
    (local_map_utf8 s k).isSome = true ∧
    (local_map_utf8 ['a','A','a','A'] 1).getD emptyMap ['a'] = 2 ∧
    (local_map_utf8 ['a','A','a','A'] 1).getD emptyMap ['A'] = 1 ∧
    (['a'] : Sequence) ≠ ['A'] := by
  have he := local_map_utf8_ascii s k hascii
  refine ⟨he, ?_, by decide, by decide, by decide⟩
  rw [he]
  simp [local_map, Nat.not_lt.mpr hk]

/-- Claim C9 witness: a sequence holding single-byte characters that are no
nucleotide symbols, with k = 2. -/
theorem shard_counter_ascii_opaque_witness :
    local_map_utf8 ['x', '!', '7'] 2 = local_map ['x', '!', '7'] 2 ∧
    (local_map_utf8 ['x', '!', '7'] 2).isSome = true ∧
    (local_map_utf8 ['a','A','a','A'] 1).getD emptyMap ['a'] = 2 ∧
    (local_map_utf8 ['a','A','a','A'] 1).getD emptyMap ['A'] = 1 ∧
    (['a'] : Sequence) ≠ ['A'] :=
  shard_counter_ascii_opaque ['x', '!', '7'] 2 (by decide) (by decide)
    (by decide)

/-- Claim C10 counterexample: the returned global mapping can hold a
zero-count entry — on `overflowInput` (one sequence of `2^32 + 1` copies of
`A` plus nine `CC` fillers) with k = 1 the engine returns, and the key `A`
is present with its `u32` count wrapped to 0. -/
theorem global_mapping_zero_count_entry :
    (count_kmers_u32 overflowInput 1).isSome = true ∧
    ((count_kmers_u32 overflowInput 1).getD []).lookup ['A'] = some 0 := by
  have hck : count_kmers_u32 overflowInput 1
      = some [(['A'], 0), (['C'], 9)] := by
    rw [count_kmers_u32, if_neg (by decide), merged_counts_u32]
    show List.foldlM _ _ (List.replicate (2 ^ 32 + 1) 'A' :: List.replicate 9 ['C', 'C']) = _
    rw [List.foldlM_cons, local_map_u32_overflow]
    simp only [Option.map_some', Option.bind_eq_bind, Option.some_bind]
    decide
  rw [hck]
  exact ⟨rfl, rfl⟩

/-- Claim C10 as amended: whenever the engine returns a global mapping with
k-mer length k, every key present in it is a string of length exactly `k`,
and its count is the key's total window count reduced modulo `2^32` (the
`u32` wrap of a release build; a debug build panics at the overflowing
increment instead) — hence at least 1 whenever that total is not a multiple
of `2^32`. -/
theorem global_mapping_entries_mod_u32 (seqs : List Sequence) (k : Nat)
    (w : Sequence)
    (hret : (count_kmers_u32 seqs k).isSome = true)
    (hpres : (((count_kmers_u32 seqs k).getD []).lookup w).isSome = true) :
    w.length = k ∧
    (((count_kmers_u32 seqs k).getD []).lookup w).getD 0
      = (count_kmers seqs k).getD emptyMap w % 2 ^ 32 ∧
    ((count_kmers seqs k).getD emptyMap w % 2 ^ 32 ≠ 0 →
      1 ≤ (((count_kmers_u32 seqs k).getD []).lookup w).getD 0) := by
  by_cases hp : progress_faults seqs
  · rw [count_kmers_u32, if_pos hp] at hret
    cases hret
  · have e32 : count_kmers_u32 seqs k = merged_counts_u32 seqs k := by
      rw [count_kmers_u32, if_neg hp]
    have eN : count_kmers seqs k = merged_counts seqs k := by
      rw [count_kmers, if_neg hp]
    rw [e32] at hret hpres ⊢
    rw [eN]
    by_cases hall : ∀ s ∈ seqs, k ≤ s.length
    · obtain ⟨g, hg, hval, hpr, _⟩ :=
        merged_u32_fold_some seqs k [] hall
          (fun y => by norm_num [valOf])
      have hgm : merged_counts_u32 seqs k = some g := hg
      rw [hgm] at hpres ⊢
      have hfN := merged_counts_char seqs k
      rw [if_pos hall] at hfN
      rw [hfN]
      simp only [Option.getD_some] at hpres ⊢
      have hw : ∃ s ∈ seqs, w ∈ windowList s k := by
        rcases hpr w hpres with h | h
        · cases h
        · exact h
      obtain ⟨s, hs, hws⟩ := hw
      have hlen : w.length = k := windowList_mem_length s k w (hall s hs) hws
      have hv : (g.lookup w).getD 0
          = (seqs.map (fun s => (windowList s k).count w)).sum % 2 ^ 32 := by
        have h := hval w
        simp only [valOf] at h
        have h0 : ((([] : List (Sequence × Nat)).lookup w).getD 0) = 0 := rfl
        rw [h0, Nat.zero_add] at h
        exact h
      exact ⟨hlen, hv, fun hnz => hv ▸ Nat.one_le_iff_ne_zero.mpr hnz⟩
    · push_neg at hall
      obtain ⟨s, hs, hsk⟩ := hall
      have hnone : merged_counts_u32 seqs k = none :=
        merged_u32_fold_none seqs k [] ⟨s, hs, hsk⟩
      rw [hnone] at hret
      cases hret

/-- Claim C10 witness: ten copies of `AAAA` with k = 2; the key `AA` is
present with count 20, which equals 20 mod `2^32`. -/
theorem global_mapping_entries_mod_u32_witness :
    (['A','A'] : Sequence).length = 2 ∧
    (((count_kmers_u32 (List.replicate 10 ['A','A','A','A']) 2).getD
        []).lookup ['A','A']).getD 0
      = (count_kmers (List.replicate 10 ['A','A','A','A']) 2).getD emptyMap
          ['A','A'] % 2 ^ 32 ∧
    ((count_kmers (List.replicate 10 ['A','A','A','A']) 2).getD emptyMap
          ['A','A'] % 2 ^ 32 ≠ 0 →
      1 ≤ (((count_kmers_u32 (List.replicate 10 ['A','A','A','A']) 2).getD
          []).lookup ['A','A']).getD 0) :=
  global_mapping_entries_mod_u32 (List.replicate 10 ['A','A','A','A']) 2
    ['A','A'] (by decide) (by decide)

end KmeRS
